import Mathlib

/-!
Verification of the elevator path-search program (src/elevator.js).

The program consists of a state-space builder (`buildElevatorPathTree`),
which materializes the tree of all reachable (elevator, floor, time)
states of a rider starting on a given elevator, and a destination search
(`findFinalDestinationPath`), which traverses that tree with an explicit
queue and a mutable path stack, returning the elevator sequence (as a
string with the root entry's first character stripped) or null.
The wrapper `findElevatorPath` builds the tree, runs the search, and
replaces a falsy result by the sentinel string "There is no solution".

The embedding below models JavaScript objects as a list of keys plus a
lookup function, JavaScript array indexing out of range (undefined) and
the falsiness of 0 as the value 0, strings as Lean strings, and the two
loops as fuel-indexed recursions (each JS loop provably performs at most
as many iterations as the supplied fuel, so the fuel case never fires on
the wrapped entry points; all theorems below are stated so that they do
not depend on fuel adequacy).
-/

/-- The empty string (used as a default value for list lookups). -/
def emptyStr : String := ""

/-- The schedule: a JavaScript object mapping elevator identifiers to
arrays of floors, one per time step.  `keys` is the object's key list in
insertion order (the order a for-in loop iterates); `floors` is property
access.  JS object keys are unique; where a claim needs that, it appears
as a `keys.Nodup` hypothesis. -/
structure Schedule where
  keys : List String
  floors : String → List Nat

/-- The indexing `elevatorStates[e][t]` with JavaScript semantics: an
out-of-range index gives `undefined`, which the program only ever tests
for truthiness or equality with another entry; both `undefined` and the
(out-of-domain) floor 0 are falsy, so both are modelled as 0. -/
def floorAt (states : Schedule) (e : String) (t : Nat) : Nat :=
  (states.floors e).getD t 0

/-- The time horizon: the number of schedule entries (maximum over the
elevators; the spec's data-model invariant makes all lengths equal). -/
def horizon (states : Schedule) : Nat :=
  (states.keys.map (fun k => (states.floors k).length)).foldr max 0

/-- One expansion step of `buildElevatorPathTree` (lines 99-138): the
(elevator, floor) data of the children appended to a node with elevator
`e` and time `t`.  First the same-elevator continuation, guarded by
truthiness of `elevatorStates[e][t]`; then, in key iteration order, every
other elevator whose entry at `t` is truthy and equal to the continuation
floor. -/
def childrenData (states : Schedule) (e : String) (t : Nat) : List (String × Nat) :=
  (if floorAt states e t ≠ 0 then [(e, floorAt states e t)] else []) ++
    states.keys.filterMap (fun k =>
      if floorAt states k t ≠ 0 ∧ e ≠ k ∧ floorAt states e t = floorAt states k t
      then some (k, floorAt states k t) else none)

/-- A tree node: the `data` fields (elevator, floor, time) together with
the `children` array. -/
inductive Node where
  | mk (elevator : String) (floor : Nat) (time : Nat) (children : List Node)

/-- The node's elevator identifier. -/
def Node.elevator : Node → String
  | .mk e _ _ _ => e

/-- The node's floor. -/
def Node.floor : Node → Nat
  | .mk _ f _ _ => f

/-- The node's time index. -/
def Node.time : Node → Nat
  | .mk _ _ t _ => t

/-- The node's children array. -/
def Node.children : Node → List Node
  | .mk _ _ _ cs => cs

/-- Recursive tree construction: a node for `(e, f, t)` whose children
are built from `childrenData`.  The breadth-first queue of the source
populates each node's children exactly once, from that node's own
(elevator, time) data, so the finished tree is this unfolding.  `fuel`
bounds the recursion depth; the wrapper supplies enough for the JS run,
where the loop stops by itself once the schedule entries run out. -/
def buildNode (states : Schedule) : Nat → String → Nat → Nat → Node
  | 0, e, f, t => Node.mk e f t []
  | fuel + 1, e, f, t =>
      Node.mk e f t
        ((childrenData states e t).map (fun q => buildNode states fuel q.1 q.2 (t + 1)))

/-- Depth bound for the built tree: children are only created while some
schedule entry at the parent's time is truthy, so no node's time exceeds
`max (floors start).length (horizon states)`; one more level of fuel
builds the (childless) deepest nodes. -/
def buildFuel (states : Schedule) (start : String) : Nat :=
  max ((states.floors start).length) (horizon states) + 1

/-- The source's buildElevatorPathTree (lines 82-140): the root holds
the starting elevator, its floor at time 0, and time 0; the rest of the
tree is the exhaustive expansion. -/
def buildElevatorPathTree (states : Schedule) (start : String) : Node :=
  buildNode states (buildFuel states start) start (floorAt states start 0) 0

mutual
/-- All nodes of a tree, root first (each tree position occurs once, so
duplicates in this list are distinct nodes carrying equal data). -/
def allNodes : Node → List Node
  | .mk e f t cs => Node.mk e f t cs :: allNodesL cs
/-- All nodes of a forest. -/
def allNodesL : List Node → List Node
  | [] => []
  | c :: cs => allNodes c ++ allNodesL cs
end

/-- The path-stack update of `findFinalDestinationPath` (lines 164-173):
if the traversal went one level deeper, push the node's elevator;
otherwise pop `currentLevel - time + 1` entries (a pop on an empty array
is a no-op, as in JS) and push the node's elevator. -/
def nextStack (stack : List String) (level : Nat) (n : Node) : List String :=
  if level < n.time then stack ++ [n.elevator]
  else stack.take (stack.length - (level - n.time + 1)) ++ [n.elevator]

/-- The traversal loop of `findFinalDestinationPath` (lines 158-186),
with the path stack kept as a list (the join and substring of the
returned value are applied in `searchLoopStr` below): shift the front
node, update the stack and `currentLevel`, unshift the children while
the node's time is below the target, and succeed when the node's time
equals the target time and its floor the target floor.  `fuel` bounds
the number of iterations (the JS loop does at most one iteration per
tree node); exhausted fuel gives `none`, exactly like an exhausted
queue, and no theorem below relies on the fuel being large enough. -/
def searchLoopStack (finalFloor finalTimeInterval : Nat) :
    Nat → List Node → List String → Nat → Option (List String)
  | _, [], _, _ => none
  | 0, _ :: _, _, _ => none
  | fuel + 1, n :: rest, stack, level =>
      let stack1 := nextStack stack level n
      if n.time = finalTimeInterval ∧ n.floor = finalFloor then some stack1
      else if n.time < finalTimeInterval then
        searchLoopStack finalFloor finalTimeInterval fuel (n.children ++ rest) stack1 n.time
      else
        searchLoopStack finalFloor finalTimeInterval fuel rest stack1 n.time

/-- The join `pathStack.join("")`: concatenation of the stack entries. -/
def joinAll (l : List String) : String :=
  String.mk ((l.map String.data).flatten)

/-- The call `s.substring(1)`: the string without its first character. -/
def strip1 (s : String) : String :=
  String.mk (s.data.drop 1)

/-- The same traversal returning what the source returns: on success,
`pathStack.join("").substring(1)` (line 184); on exhaustion, null. -/
def searchLoopStr (finalFloor finalTimeInterval : Nat) :
    Nat → List Node → List String → Nat → Option String
  | _, [], _, _ => none
  | 0, _ :: _, _, _ => none
  | fuel + 1, n :: rest, stack, level =>
      let stack1 := nextStack stack level n
      if n.time = finalTimeInterval ∧ n.floor = finalFloor then some (strip1 (joinAll stack1))
      else if n.time < finalTimeInterval then
        searchLoopStr finalFloor finalTimeInterval fuel (n.children ++ rest) stack1 n.time
      else
        searchLoopStr finalFloor finalTimeInterval fuel rest stack1 n.time

/-- The search at the level of the path stack: the stack contents (root
entry included) at the moment of success, or `none`. -/
def findFinalDestinationStack (root : Node) (finalFloor finalTimeInterval : Nat) :
    Option (List String) :=
  searchLoopStack finalFloor finalTimeInterval ((allNodes root).length + 1) [root] [] 0

/-- The source's findFinalDestinationPath (lines 149-188): the
elevator-path string on success, `none` for the source's null. -/
def findFinalDestinationPath (root : Node) (finalFloor finalTimeInterval : Nat) :
    Option String :=
  searchLoopStr finalFloor finalTimeInterval ((allNodes root).length + 1) [root] [] 0

/-- The source's findElevatorPath (lines 191-201), with the
"floor-time" token already split and parsed (the split/parseInt glue is
outside the core, spec section 6).  The source returns
`path || "There is no solution"`: both null and the empty string are
falsy, so both become the sentinel. -/
def findElevatorPath (states : Schedule) (start : String)
    (finalFloor finalTimeInterval : Nat) : String :=
  match findFinalDestinationPath (buildElevatorPathTree states start) finalFloor finalTimeInterval with
  | none => "There is no solution"
  | some path => if path = emptyStr then "There is no solution" else path

/-- One legal step of the rider between consecutive time levels, read
off the builder's child-creation conditions: from elevator `e` at time
index `t` the rider either stays on `e` (requires a truthy entry
`schedule[e][t]`) or transfers to a different elevator whose entry at
`t` is truthy and equal to `e`'s. -/
def stepOK (states : Schedule) (e e2 : String) (t : Nat) : Prop :=
  (e2 = e ∧ floorAt states e t ≠ 0) ∨
    (e ≠ e2 ∧ floorAt states e2 t ≠ 0 ∧ floorAt states e t = floorAt states e2 t)

/-- A root-inclusive elevator sequence is a legal chain: every adjacent
pair is a legal step at its time level. -/
def GoodChain (states : Schedule) (p : List String) : Prop :=
  ∀ i : Nat, i + 1 < p.length → stepOK states (p.getD i emptyStr) (p.getD (i + 1) emptyStr) i

/-- The floor the rider occupies at step `t` when following the
root-inclusive elevator sequence `p`: the schedule entry of the step-`t`
elevator at index `t - 1` (for `t = 0` this is the root elevator's entry
at index 0, which is the root's floor). -/
def riderFloor (states : Schedule) (p : List String) (t : Nat) : Nat :=
  floorAt states (p.getD t emptyStr) (t - 1)

/-- Invariant tying a queued node `n` to the current path stack of the
search: truncating the stack to `n.time` entries and appending `n`'s
elevator yields the root-to-`n` elevator chain — it starts at the
starting elevator, it is a legal chain, and `n`'s floor is the rider's
floor at step `n.time` along it. -/
def NodeFits (states : Schedule) (start : String) (stack : List String) (n : Node) : Prop :=
  (stack.take n.time ++ [n.elevator]).getD 0 emptyStr = start ∧
    GoodChain states (stack.take n.time ++ [n.elevator]) ∧
    n.floor = riderFloor states (stack.take n.time ++ [n.elevator]) n.time

/-- A tree is well built when every node's children carry exactly the
`childrenData` of its (elevator, time), at time one greater. -/
inductive WellBuilt (states : Schedule) : Node → Prop where
  | mk : ∀ (e : String) (f t : Nat) (cs : List Node),
      cs.map (fun c => (c.elevator, c.floor)) = childrenData states e t →
      (∀ c ∈ cs, c.time = t + 1) →
      (∀ c ∈ cs, WellBuilt states c) →
      WellBuilt states (Node.mk e f t cs)

/-- The schedule of testCase1 (lines 208-218). -/
def schedule1 : Schedule where
  keys := ["A", "B", "C", "D"]
  floors := fun k =>
    if k = "A" then [1, 4, 3, 2, 2]
    else if k = "B" then [3, 3, 3, 4, 2]
    else if k = "C" then [2, 2, 6, 6, 6]
    else if k = "D" then [6, 1, 1, 4, 5]
    else []

/-- The schedule of testCase2 (lines 221-232). -/
def schedule2 : Schedule where
  keys := ["A", "B", "C", "D", "E"]
  floors := fun k =>
    if k = "A" then [1, 7, 7, 7, 5, 2, 1]
    else if k = "B" then [2, 9, 6, 3, 9, 8, 3]
    else if k = "C" then [9, 8, 7, 5, 5, 4, 5]
    else if k = "D" then [2, 1, 3, 4, 8, 1, 2]
    else if k = "E" then [8, 1, 5, 5, 6, 7, 7]
    else []

/-- The schedule of testCase3 (lines 235-246): testCase2 with A's dip to
floor 5 at index 4 removed. -/
def schedule3 : Schedule where
  keys := ["A", "B", "C", "D", "E"]
  floors := fun k =>
    if k = "A" then [1, 7, 7, 7, 7, 2, 1]
    else if k = "B" then [2, 9, 6, 3, 9, 8, 3]
    else if k = "C" then [9, 8, 7, 5, 5, 4, 5]
    else if k = "D" then [2, 1, 3, 4, 8, 1, 2]
    else if k = "E" then [8, 1, 5, 5, 6, 7, 7]
    else []

/-- A two-elevator schedule on which the builder duplicates
(elevator, time) pairs across branches. -/
def scheduleDup : Schedule where
  keys := ["A", "B"]
  floors := fun k =>
    if k = "A" then [1, 2]
    else if k = "B" then [1, 2]
    else []

/-- A schedule whose starting elevator has the (out-of-domain) floor 0
at time 0. -/
def scheduleZero : Schedule where
  keys := ["A"]
  floors := fun k => if k = "A" then [0] else []

/-- A schedule with a multi-character elevator identifier. -/
def scheduleAB : Schedule where
  keys := ["AB"]
  floors := fun k => if k = "AB" then [1, 1] else []

/-- A one-elevator, one-time-step schedule: the rider is already at
floor 1 at time 0, so the target "floor 1 at time 0" has a valid
zero-transfer path. -/
def scheduleUnit : Schedule where
  keys := ["A"]
  floors := fun k => if k = "A" then [1] else []

/-! ### Basic lemmas about the tree and its node list -/

@[simp]
theorem elevator_mk (e : String) (f t : Nat) (cs : List Node) :
    (Node.mk e f t cs).elevator = e := rfl

@[simp]
theorem floor_mk (e : String) (f t : Nat) (cs : List Node) :
    (Node.mk e f t cs).floor = f := rfl

@[simp]
theorem time_mk (e : String) (f t : Nat) (cs : List Node) :
    (Node.mk e f t cs).time = t := rfl

@[simp]
theorem children_mk (e : String) (f t : Nat) (cs : List Node) :
    (Node.mk e f t cs).children = cs := rfl

@[simp]
theorem allNodes_mk (e : String) (f t : Nat) (cs : List Node) :
    allNodes (Node.mk e f t cs) = Node.mk e f t cs :: allNodesL cs := rfl

@[simp]
theorem allNodesL_nil : allNodesL [] = [] := rfl

@[simp]
theorem allNodesL_cons (c : Node) (cs : List Node) :
    allNodesL (c :: cs) = allNodes c ++ allNodesL cs := rfl

theorem mem_allNodesL {m : Node} {cs : List Node} :
    m ∈ allNodesL cs ↔ ∃ c ∈ cs, m ∈ allNodes c := by
  induction cs with
  | nil => simp
  | cons c cs ih => simp [ih]

theorem mem_allNodes_self (n : Node) : n ∈ allNodes n := by
  cases n with
  | mk e f t cs => simp

theorem mem_allNodes_iff {m n : Node} :
    m ∈ allNodes n ↔ m = n ∨ ∃ c ∈ n.children, m ∈ allNodes c := by
  cases n with
  | mk e f t cs => simp [mem_allNodesL]

theorem mem_allNodes_of_child {m c n : Node} (hc : c ∈ n.children)
    (hm : m ∈ allNodes c) : m ∈ allNodes n := by
  exact mem_allNodes_iff.2 (Or.inr ⟨c, hc, hm⟩)

/-! ### Properties of one expansion step -/

theorem mem_childrenData {states : Schedule} {e : String} {t : Nat}
    {q : String × Nat} (h : q ∈ childrenData states e t) :
    q.2 = floorAt states q.1 t ∧ q.2 ≠ 0 ∧ floorAt states e t = q.2 ∧
      (q.1 = e ∨ (e ≠ q.1 ∧ q.1 ∈ states.keys)) := by
  unfold childrenData at h
  rcases List.mem_append.1 h with h1 | h2
  · by_cases hg : floorAt states e t ≠ 0
    · rw [if_pos hg] at h1
      rcases List.mem_singleton.1 h1 with rfl
      exact ⟨rfl, hg, rfl, Or.inl rfl⟩
    · rw [if_neg hg] at h1
      exact absurd h1 (List.not_mem_nil q)
  · rcases List.mem_filterMap.1 h2 with ⟨k, hk, hq⟩
    by_cases hc : floorAt states k t ≠ 0 ∧ e ≠ k ∧ floorAt states e t = floorAt states k t
    · rw [if_pos hc] at hq
      rcases Option.some_inj.1 hq with rfl
      exact ⟨rfl, hc.1, hc.2.2, Or.inr ⟨hc.2.1, hk⟩⟩
    · rw [if_neg hc] at hq
      exact absurd hq (Option.noConfusion)

theorem stepOK_of_childrenData {states : Schedule} {e : String} {t : Nat}
    {q : String × Nat} (h : q ∈ childrenData states e t) :
    stepOK states e q.1 t := by
  rcases mem_childrenData h with ⟨hf, hnz, heq, hcase⟩
  rcases hcase with hq | ⟨hne, _⟩
  · exact Or.inl ⟨hq, by rw [heq]; exact hnz⟩
  · exact Or.inr ⟨hne, by rw [← hf]; exact hnz, by rw [heq, hf]⟩

theorem childrenData_eq_nil {states : Schedule} {e : String} {t : Nat}
    (h : floorAt states e t = 0) : childrenData states e t = [] := by
  unfold childrenData
  rw [if_neg (by simp [h]), List.nil_append, List.filterMap_eq_nil_iff]
  intro k _
  rw [if_neg]
  rintro ⟨hk, -, hek⟩
  exact hk (by rw [← hek, h])

/-! ### The built tree is well built -/

theorem buildNode_elevator (states : Schedule) (fuel : Nat) (e : String) (f t : Nat) :
    (buildNode states fuel e f t).elevator = e := by
  cases fuel <;> rfl

theorem buildNode_floor (states : Schedule) (fuel : Nat) (e : String) (f t : Nat) :
    (buildNode states fuel e f t).floor = f := by
  cases fuel <;> rfl

theorem buildNode_time (states : Schedule) (fuel : Nat) (e : String) (f t : Nat) :
    (buildNode states fuel e f t).time = t := by
  cases fuel <;> rfl

theorem le_foldr_max {l : List Nat} {x : Nat} (hx : x ∈ l) : x ≤ l.foldr max 0 := by
  induction l with
  | nil => exact absurd hx (List.not_mem_nil x)
  | cons a l ih =>
      rcases List.mem_cons.1 hx with rfl | hx2
      · exact le_max_left _ _
      · exact le_trans (ih hx2) (le_max_right _ _)

theorem length_le_horizon {states : Schedule} {k : String} (hk : k ∈ states.keys) :
    (states.floors k).length ≤ horizon states :=
  le_foldr_max (List.mem_map.2 ⟨k, hk, rfl⟩)

theorem lt_length_of_floorAt_ne_zero {states : Schedule} {k : String} {t : Nat}
    (h : floorAt states k t ≠ 0) : t < (states.floors k).length := by
  by_contra hlt
  exact h (List.getD_eq_default _ _ (Nat.le_of_not_lt hlt))

theorem buildNode_wellBuilt (states : Schedule) :
    ∀ (fuel : Nat) (e : String) (f t : Nat),
      (states.floors e).length ≤ fuel + t → horizon states ≤ fuel + t →
      WellBuilt states (buildNode states fuel e f t) := by
  intro fuel
  induction fuel with
  | zero =>
      intro e f t he hh
      have hnil : childrenData states e t = [] := by
        apply childrenData_eq_nil
        exact List.getD_eq_default _ _ (by omega)
      exact WellBuilt.mk e f t [] (by rw [hnil]; rfl) (by simp) (by simp)
  | succ fuel ih =>
      intro e f t he hh
      rw [buildNode]
      refine WellBuilt.mk e f t _ ?_ ?_ ?_
      · rw [List.map_map]
        have : ((fun c => (c.elevator, c.floor)) ∘ fun q => buildNode states fuel q.1 q.2 (t + 1)) =
            fun q : String × Nat => (q.1, q.2) := by
          funext q
          simp [buildNode_elevator, buildNode_floor]
        rw [this]
        simp
      · intro c hc
        rcases List.mem_map.1 hc with ⟨q, _, rfl⟩
        exact buildNode_time states fuel q.1 q.2 (t + 1)
      · intro c hc
        rcases List.mem_map.1 hc with ⟨q, hq, rfl⟩
        rcases mem_childrenData hq with ⟨-, hnz, heq, hcase⟩
        apply ih
        · rcases hcase with hq1 | ⟨-, hq1⟩
          · rw [hq1]; omega
          · have := length_le_horizon hq1
            omega
        · omega

theorem build_wellBuilt (states : Schedule) (start : String) :
    WellBuilt states (buildElevatorPathTree states start) := by
  apply buildNode_wellBuilt
  · unfold buildFuel
    have := le_max_left ((states.floors start).length) (horizon states)
    omega
  · unfold buildFuel
    have := le_max_right ((states.floors start).length) (horizon states)
    omega

theorem wellBuilt_mem {states : Schedule} {n : Node} (h : WellBuilt states n) :
    ∀ m ∈ allNodes n, WellBuilt states m := by
  induction h with
  | mk e f t cs hmap htime hwb ih =>
      intro m hm
      rcases mem_allNodes_iff.1 hm with rfl | ⟨c, hc, hmc⟩
      · exact WellBuilt.mk e f t cs hmap htime hwb
      · exact ih c (by simpa using hc) m hmc

/-! ### Invariants of every node of the built tree -/

theorem allNodes_buildNode_floors (states : Schedule) :
    ∀ (fuel : Nat) (e : String) (f t : Nat),
      ∀ m ∈ allNodes (buildNode states fuel e f t),
        t ≤ m.time ∧ (m.time = t → m.floor = f ∧ m.elevator = e) ∧
          (t < m.time → m.floor = floorAt states m.elevator (m.time - 1) ∧ m.floor ≠ 0) := by
  intro fuel
  induction fuel with
  | zero =>
      intro e f t m hm
      rw [buildNode] at hm
      rcases mem_allNodes_iff.1 hm with rfl | ⟨c, hc, -⟩
      · exact ⟨Nat.le_refl t, fun _ => ⟨rfl, rfl⟩, fun hlt => absurd hlt (by simp)⟩
      · exact absurd hc (by simp)
  | succ fuel ih =>
      intro e f t m hm
      rw [buildNode] at hm
      rcases mem_allNodes_iff.1 hm with rfl | ⟨c, hc, hmc⟩
      · exact ⟨Nat.le_refl t, fun _ => ⟨rfl, rfl⟩, fun hlt => absurd hlt (by simp)⟩
      · have hc2 : ∃ a b, (a, b) ∈ childrenData states e t ∧
            buildNode states fuel a b (t + 1) = c := by simpa using hc
        rcases hc2 with ⟨a, b, hq, rfl⟩
        rcases ih a b (t + 1) m hmc with ⟨h1, h2, h3⟩
        rcases mem_childrenData hq with ⟨hf, hnz, -, -⟩
        simp only [Prod.fst, Prod.snd] at hf hnz
        refine ⟨by omega, fun ht => by omega, fun _ => ?_⟩
        rcases Nat.lt_or_ge (t + 1) m.time with hlt | hge
        · exact h3 hlt
        · have ht : m.time = t + 1 := by omega
          rcases h2 ht with ⟨hmf, hme⟩
          refine ⟨?_, by rw [hmf]; exact hnz⟩
          rw [hmf, hme, ht, hf]
          simp

theorem allNodes_buildNode_keys (states : Schedule) :
    ∀ (fuel : Nat) (e : String) (f t : Nat), e ∈ states.keys →
      ∀ m ∈ allNodes (buildNode states fuel e f t),
        m.elevator ∈ states.keys ∧ m.time ≤ max t (horizon states) := by
  intro fuel
  induction fuel with
  | zero =>
      intro e f t he m hm
      rw [buildNode] at hm
      rcases mem_allNodes_iff.1 hm with rfl | ⟨c, hc, -⟩
      · exact ⟨he, le_max_left _ _⟩
      · exact absurd hc (by simp)
  | succ fuel ih =>
      intro e f t he m hm
      rw [buildNode] at hm
      rcases mem_allNodes_iff.1 hm with rfl | ⟨c, hc, hmc⟩
      · exact ⟨he, le_max_left _ _⟩
      · have hc2 : ∃ a b, (a, b) ∈ childrenData states e t ∧
            buildNode states fuel a b (t + 1) = c := by simpa using hc
        rcases hc2 with ⟨a, b, hq, rfl⟩
        rcases mem_childrenData hq with ⟨hf, hnz, -, hcase⟩
        simp only [Prod.fst, Prod.snd] at hf hnz hcase
        have hq1 : a ∈ states.keys := by
          rcases hcase with hq1 | ⟨-, hq1⟩
          · rw [hq1]; exact he
          · exact hq1
        have hlen : t < (states.floors a).length :=
          lt_length_of_floorAt_ne_zero (fun hz => hnz (by rw [hf]; exact hz))
        have hth : t + 1 ≤ horizon states := le_trans hlen (length_le_horizon hq1)
        rcases ih a b (t + 1) hq1 m hmc with ⟨h1, h2⟩
        exact ⟨h1, by omega⟩

/-! ### Chain and stack helper lemmas -/

theorem goodChain_snoc {states : Schedule} {p : List String} {x : String}
    (hp : GoodChain states p)
    (hstep : 0 < p.length → stepOK states (p.getD (p.length - 1) emptyStr) x (p.length - 1)) :
    GoodChain states (p ++ [x]) := by
  intro i hi
  rw [List.length_append, List.length_singleton] at hi
  rcases Nat.lt_or_ge (i + 1) p.length with hlt | hge
  · rw [List.getD_append _ _ _ i (by omega), List.getD_append _ _ _ (i + 1) (by omega)]
    exact hp i hlt
  · have hip : i + 1 = p.length := by omega
    rw [List.getD_append _ _ _ i (by omega),
      List.getD_append_right _ _ _ (i + 1) (by omega)]
    have hx : [x].getD (i + 1 - p.length) emptyStr = x := by
      rw [hip]
      simp
    rw [hx]
    have h0 := hstep (by omega)
    have hpi : p.length - 1 = i := by omega
    rw [hpi] at h0
    exact h0

theorem nextStack_eq {stack : List String} {level : Nat} {n : Node}
    (hlen : stack.length = level + 1) (hnt : n.time ≤ level + 1) :
    nextStack stack level n = stack.take n.time ++ [n.elevator] := by
  unfold nextStack
  by_cases hc : level < n.time
  · rw [if_pos hc]
    have hfull : n.time = stack.length := by omega
    rw [hfull, List.take_length]
  · rw [if_neg hc]
    have harith : stack.length - (level - n.time + 1) = n.time := by omega
    rw [harith]

theorem take_stack_stable {stack : List String} {m k : Nat} {x : String}
    (hmk : m ≤ k) (hk : k ≤ stack.length) :
    (stack.take k ++ [x]).take m = stack.take m := by
  rw [List.take_append_of_le_length (by rw [List.length_take]; omega), List.take_take]
  congr 1
  omega

theorem pairwise_forall_mem {α : Type} {R : α → α → Prop} {l : List α}
    (h : ∀ a ∈ l, ∀ b ∈ l, R a b) : List.Pairwise R l := by
  induction l with
  | nil => exact List.Pairwise.nil
  | cons a l ih =>
      rw [List.pairwise_cons]
      refine ⟨fun b hb => h a (List.mem_cons_self a l) b (List.mem_cons_of_mem a hb), ?_⟩
      exact ih (fun x hx y hy => h x (List.mem_cons_of_mem a hx) y (List.mem_cons_of_mem a hy))

/-! ### Soundness of the traversal: what a returned path stack satisfies -/

theorem getD_snoc_self {α : Type} (l : List α) (x d : α) : (l ++ [x]).getD l.length d = x := by
  rw [List.getD_append_right _ _ _ _ (Nat.le_refl _)]
  simp

theorem nodeFits_shrink {states : Schedule} {start : String} {stack : List String}
    {k : Nat} {x : String} {m : Node} (hmk : m.time ≤ k) (hk : k ≤ stack.length)
    (hfit : NodeFits states start stack m) :
    NodeFits states start (stack.take k ++ [x]) m := by
  unfold NodeFits at hfit ⊢
  rw [take_stack_stable hmk hk]
  exact hfit

theorem nodeFits_child {states : Schedule} {start : String} {p : List String}
    {e : String} {t : Nat} {m : Node}
    (hp : p.length = t + 1) (h0 : p.getD 0 emptyStr = start) (hG : GoodChain states p)
    (hlast : p.getD t emptyStr = e) (hmt : m.time = t + 1)
    (hmq : (m.elevator, m.floor) ∈ childrenData states e t) :
    NodeFits states start p m := by
  have htake : p.take m.time = p := by
    rw [hmt, ← hp, List.take_length]
  rcases mem_childrenData hmq with ⟨hf, -, -, -⟩
  simp only [Prod.fst, Prod.snd] at hf
  have hlastm : (p ++ [m.elevator]).getD (t + 1) emptyStr = m.elevator := by
    rw [← hp, getD_snoc_self]
  refine ⟨?_, ?_, ?_⟩
  · rw [htake, List.getD_append _ _ _ 0 (by omega)]
    exact h0
  · rw [htake]
    apply goodChain_snoc hG
    intro _
    rw [hp]
    simp only [Nat.add_sub_cancel]
    rw [hlast]
    have := stepOK_of_childrenData hmq
    simpa using this
  · rw [htake]
    unfold riderFloor
    rw [hmt, hlastm]
    simp only [Nat.add_sub_cancel]
    exact hf

theorem searchLoopStack_some_spec (states : Schedule) (start : String) (ff ft : Nat) :
    ∀ (fuel : Nat) (queue : List Node) (stack : List String) (level : Nat) (ps : List String),
      stack.length = level + 1 →
      (∀ n ∈ queue, n.time ≤ level + 1 ∧ WellBuilt states n ∧ NodeFits states start stack n) →
      List.Pairwise (fun a b => b.time ≤ a.time) queue →
      searchLoopStack ff ft fuel queue stack level = some ps →
      ps.getD 0 emptyStr = start ∧ ps.length = ft + 1 ∧ GoodChain states ps ∧
        riderFloor states ps ft = ff := by
  intro fuel
  induction fuel with
  | zero =>
      intro queue stack level ps _ _ _ hrun
      cases queue with
      | nil => simp [searchLoopStack] at hrun
      | cons n rest => simp [searchLoopStack] at hrun
  | succ fuel ih =>
      intro queue stack level ps hlen hinv hpw hrun
      cases queue with
      | nil => simp [searchLoopStack] at hrun
      | cons n rest =>
        obtain ⟨hnt, hwb, hfit⟩ := hinv n (List.mem_cons_self n rest)
        rcases hwb with ⟨e, f, t, cs, hmap, htimes, hwbc⟩
        simp only [time_mk, floor_mk, elevator_mk, children_mk] at hnt hfit
        have hntlen : t ≤ stack.length := by omega
        have hstack1 : nextStack stack level (Node.mk e f t cs) = stack.take t ++ [e] := by
          have h2 := nextStack_eq hlen (show (Node.mk e f t cs).time ≤ level + 1 by
            simpa using hnt)
          simpa using h2
        have htklen : (stack.take t).length = t := by
          rw [List.length_take]
          omega
        have hlen1 : (stack.take t ++ [e]).length = t + 1 := by
          rw [List.length_append, List.length_singleton, htklen]
        have hpwrel : ∀ m ∈ rest, m.time ≤ t := by
          intro m hm
          have h2 := List.rel_of_pairwise_cons hpw hm
          simpa using h2
        have hrest : ∀ m ∈ rest, m.time ≤ t + 1 ∧ WellBuilt states m ∧
            NodeFits states start (stack.take t ++ [e]) m := by
          intro m hm
          obtain ⟨hmt, hmwb, hmfit⟩ := hinv m (List.mem_cons_of_mem _ hm)
          exact ⟨by have := hpwrel m hm; omega, hmwb,
            nodeFits_shrink (hpwrel m hm) hntlen hmfit⟩
        have hch0 : (stack.take t ++ [e]).getD 0 emptyStr = start := hfit.1
        have hchG : GoodChain states (stack.take t ++ [e]) := hfit.2.1
        have hchlast : (stack.take t ++ [e]).getD t emptyStr = e := by
          have h2 := getD_snoc_self (stack.take t) e emptyStr
          rwa [htklen] at h2
        rw [searchLoopStack] at hrun
        simp only [time_mk, floor_mk, children_mk, hstack1] at hrun
        by_cases hmatch : t = ft ∧ f = ff
        · rw [if_pos hmatch] at hrun
          have hps : ps = stack.take t ++ [e] := (Option.some_inj.1 hrun).symm
          subst hps
          refine ⟨hch0, ?_, hchG, ?_⟩
          · rw [hlen1, hmatch.1]
          · have hff : f = riderFloor states (stack.take t ++ [e]) t := by
              simpa using hfit.2.2
            rw [← hmatch.1, ← hff]
            exact hmatch.2
        · rw [if_neg hmatch] at hrun
          by_cases hexp : t < ft
          · rw [if_pos hexp] at hrun
            refine ih (cs ++ rest) (stack.take t ++ [e]) t ps hlen1 ?_ ?_ hrun
            · intro m hm
              rcases List.mem_append.1 hm with hmc | hmr
              · have hmt : m.time = t + 1 := htimes m hmc
                have hmq : (m.elevator, m.floor) ∈ childrenData states e t := by
                  rw [← hmap]
                  exact List.mem_map_of_mem _ hmc
                exact ⟨by omega, hwbc m hmc,
                  nodeFits_child hlen1 hch0 hchG hchlast hmt hmq⟩
              · exact hrest m hmr
            · rw [List.pairwise_append]
              refine ⟨?_, hpw.of_cons, ?_⟩
              · apply pairwise_forall_mem
                intro a ha b hb
                rw [htimes a ha, htimes b hb]
              · intro a ha b hb
                rw [htimes a ha]
                have := hpwrel b hb
                omega
          · rw [if_neg hexp] at hrun
            exact ih rest (stack.take t ++ [e]) t ps hlen1 (fun m hm => hrest m hm)
              hpw.of_cons hrun

theorem goodChain_singleton (states : Schedule) (x : String) : GoodChain states [x] := by
  intro i hi
  simp at hi

theorem wellBuilt_inv {states : Schedule} {e : String} {f t : Nat} {cs : List Node}
    (h : WellBuilt states (Node.mk e f t cs)) :
    cs.map (fun c => (c.elevator, c.floor)) = childrenData states e t ∧
      (∀ c ∈ cs, c.time = t + 1) ∧ (∀ c ∈ cs, WellBuilt states c) := by
  cases h with
  | mk e f t cs hmap htimes hwbc => exact ⟨hmap, htimes, hwbc⟩

theorem searchLoopStack_root_spec (states : Schedule) (start : String) (ff ft : Nat)
    (fuel fuel2 : Nat) (ps : List String)
    (hfl : (states.floors start).length ≤ fuel) (hhz : horizon states ≤ fuel)
    (hrun : searchLoopStack ff ft (fuel2 + 1)
      [buildNode states (fuel + 1) start (floorAt states start 0) 0] [] 0 = some ps) :
    ps.getD 0 emptyStr = start ∧ ps.length = ft + 1 ∧ GoodChain states ps ∧
      riderFloor states ps ft = ff := by
  rw [buildNode] at hrun
  generalize hcs : (childrenData states start 0).map
    (fun q => buildNode states fuel q.1 q.2 (0 + 1)) = cs0 at hrun
  have hwb : WellBuilt states (Node.mk start (floorAt states start 0) 0 cs0) := by
    rw [← hcs, ← buildNode]
    exact buildNode_wellBuilt states (fuel + 1) start (floorAt states start 0) 0
      (by omega) (by omega)
  obtain ⟨hmap, htimes, hwbc⟩ := wellBuilt_inv hwb
  rw [searchLoopStack] at hrun
  have hns : nextStack [] 0 (Node.mk start (floorAt states start 0) 0 cs0) = [start] := by
    simp [nextStack]
  simp only [time_mk, floor_mk, children_mk, hns] at hrun
  by_cases hm : 0 = ft ∧ floorAt states start 0 = ff
  · rw [if_pos hm] at hrun
    have hps : ps = [start] := (Option.some_inj.1 hrun).symm
    subst hps
    refine ⟨by simp, by rw [← hm.1]; rfl, goodChain_singleton states start, ?_⟩
    rw [← hm.1]
    unfold riderFloor
    simpa using hm.2
  · rw [if_neg hm] at hrun
    by_cases hexp : 0 < ft
    · rw [if_pos hexp] at hrun
      refine searchLoopStack_some_spec states start ff ft fuel2 (cs0 ++ []) [start] 0 ps
        rfl ?_ ?_ hrun
      · intro m hmm
        rw [List.append_nil] at hmm
        have hmt : m.time = 0 + 1 := htimes m hmm
        have hmq : (m.elevator, m.floor) ∈ childrenData states start 0 := by
          rw [← hmap]
          exact List.mem_map_of_mem _ hmm
        exact ⟨by omega, hwbc m hmm,
          nodeFits_child (e := start) (t := 0) rfl rfl (goodChain_singleton states start)
            rfl hmt hmq⟩
      · rw [List.append_nil]
        apply pairwise_forall_mem
        intro a ha b hb
        rw [htimes a ha, htimes b hb]
    · rw [if_neg hexp] at hrun
      cases fuel2 <;> simp [searchLoopStack] at hrun

/-! ### The string-returning traversal is the stack traversal plus rendering -/

theorem searchLoopStr_eq (ff ft : Nat) :
    ∀ (fuel : Nat) (queue : List Node) (stack : List String) (level : Nat),
      searchLoopStr ff ft fuel queue stack level =
        (searchLoopStack ff ft fuel queue stack level).map (fun ps => strip1 (joinAll ps)) := by
  intro fuel
  induction fuel with
  | zero =>
      intro queue stack level
      cases queue <;> simp [searchLoopStr, searchLoopStack]
  | succ fuel ih =>
      intro queue stack level
      cases queue with
      | nil => simp [searchLoopStr, searchLoopStack]
      | cons n rest =>
          rw [searchLoopStr, searchLoopStack]
          by_cases hm : n.time = ft ∧ n.floor = ff
          · rw [if_pos hm, if_pos hm]
            rfl
          · rw [if_neg hm, if_neg hm]
            by_cases hexp : n.time < ft
            · rw [if_pos hexp, if_pos hexp]
              exact ih _ _ _
            · rw [if_neg hexp, if_neg hexp]
              exact ih _ _ _

/-! ### If no tree node matches, the traversal returns none -/

theorem searchLoopStack_none (ff ft : Nat) :
    ∀ (fuel : Nat) (queue : List Node) (stack : List String) (level : Nat),
      (∀ n ∈ queue, ∀ m ∈ allNodes n, ¬(m.time = ft ∧ m.floor = ff)) →
      searchLoopStack ff ft fuel queue stack level = none := by
  intro fuel
  induction fuel with
  | zero =>
      intro queue stack level _
      cases queue <;> simp [searchLoopStack]
  | succ fuel ih =>
      intro queue stack level hno
      cases queue with
      | nil => simp [searchLoopStack]
      | cons n rest =>
          rw [searchLoopStack]
          have hn := hno n (List.mem_cons_self n rest) n (mem_allNodes_self n)
          rw [if_neg hn]
          by_cases hexp : n.time < ft
          · rw [if_pos hexp]
            apply ih
            intro k hk m hm
            rcases List.mem_append.1 hk with hkc | hkr
            · exact hno n (List.mem_cons_self n rest) m (mem_allNodes_of_child hkc hm)
            · exact hno k (List.mem_cons_of_mem n hkr) m hm
          · rw [if_neg hexp]
            apply ih
            intro k hk m hm
            exact hno k (List.mem_cons_of_mem n hk) m hm

/-! ### Claim theorems -/

/-- C2: for every schedule, starting elevator, target floor and target
time: (1) if the search over the built tree returns a path stack, the
stack lists the starting elevator followed by exactly `targetTime`
entries (one elevator per time step 1..targetTime), every adjacent pair
of entries is either the same elevator or a transfer between co-located
elevators at the floor of that step, and following the entries puts the
rider on exactly `targetFloor` at step `targetTime`; and (2) whenever
the query returns anything other than the no-solution sentinel, it is
the rendering of such a returned path stack. -/
theorem C2_found_path_valid :
    (∀ (states : Schedule) (start : String) (targetFloor targetTime : Nat)
        (ps : List String),
      findFinalDestinationStack (buildElevatorPathTree states start)
          targetFloor targetTime = some ps →
        ps.getD 0 emptyStr = start ∧ ps.length = targetTime + 1 ∧
          ps.tail.length = targetTime ∧ GoodChain states ps ∧
          riderFloor states ps targetTime = targetFloor) ∧
      (∀ (states : Schedule) (start : String) (targetFloor targetTime : Nat) (s : String),
        findElevatorPath states start targetFloor targetTime = s →
          s ≠ "There is no solution" →
          ∃ ps, findFinalDestinationStack (buildElevatorPathTree states start)
              targetFloor targetTime = some ps ∧ s = strip1 (joinAll ps)) := by
  constructor
  · intro states start targetFloor targetTime ps h
    unfold findFinalDestinationStack buildElevatorPathTree buildFuel at h
    obtain ⟨h1, h2, h3, h4⟩ := searchLoopStack_root_spec states start targetFloor targetTime
      _ _ ps (le_max_left _ _) (le_max_right _ _) h
    refine ⟨h1, h2, ?_, h3, h4⟩
    rw [List.length_tail, h2]
    omega
  · intro states start targetFloor targetTime s hs hns
    unfold findElevatorPath at hs
    have hrel : findFinalDestinationPath (buildElevatorPathTree states start)
        targetFloor targetTime =
        (findFinalDestinationStack (buildElevatorPathTree states start)
          targetFloor targetTime).map (fun ps => strip1 (joinAll ps)) := by
      unfold findFinalDestinationPath findFinalDestinationStack
      exact searchLoopStr_eq targetFloor targetTime _ _ _ _
    rcases hopt : findFinalDestinationStack (buildElevatorPathTree states start)
        targetFloor targetTime with _ | ps
    · rw [hrel, hopt] at hs
      exact absurd hs.symm hns
    · rw [hrel, hopt] at hs
      have hs2 : (if strip1 (joinAll ps) = emptyStr then "There is no solution"
          else strip1 (joinAll ps)) = s := hs
      by_cases he : strip1 (joinAll ps) = emptyStr
      · rw [if_pos he] at hs2
        exact absurd hs2.symm hns
      · rw [if_neg he] at hs2
        exact ⟨ps, rfl, hs2.symm⟩

/-- Witness for C2 on the testCase1 query. -/
theorem C2_found_path_valid_witness :
    ∃ ps, findFinalDestinationStack (buildElevatorPathTree schedule1 "A") 5 5 = some ps ∧
      (ps.getD 0 emptyStr = "A" ∧ ps.length = 5 + 1 ∧ ps.tail.length = 5 ∧
        GoodChain schedule1 ps ∧ riderFloor schedule1 ps 5 = 5) :=
  ⟨["A", "A", "A", "B", "D", "D"], by decide,
    C2_found_path_valid.1 schedule1 "A" 5 5 ["A", "A", "A", "B", "D", "D"] (by decide)⟩

/-- C4: on the testCase1 schedule, starting at A with target floor 5 at
target time 5, the query returns the path A,A,B,D,D: the rendered string
"AABDD" and, at the level of the path stack, five elevator entries (one
per time step 1..5) after the root entry. -/
theorem C4_testCase1 :
    findElevatorPath schedule1 "A" 5 5 = "AABDD" ∧
      (findFinalDestinationStack (buildElevatorPathTree schedule1 "A") 5 5).map List.tail =
        some ["A", "A", "B", "D", "D"] :=
  ⟨rfl, rfl⟩

/-- C5: on the testCase3 schedule (no floor-5 dip of elevator A at time
index 4), starting at B with target floor 2 at target time 6, the search
finds nothing (null) and the query reports the no-solution result. -/
theorem C5_testCase3 :
    findElevatorPath schedule3 "B" 2 6 = "There is no solution" ∧
      findFinalDestinationPath (buildElevatorPathTree schedule3 "B") 2 6 = none :=
  ⟨rfl, rfl⟩

theorem findPath_none_of_no_match (root : Node) (targetFloor targetTime : Nat)
    (hno : ∀ m ∈ allNodes root, ¬(m.time = targetTime ∧ m.floor = targetFloor)) :
    findFinalDestinationPath root targetFloor targetTime = none := by
  unfold findFinalDestinationPath
  rw [searchLoopStr_eq, searchLoopStack_none]
  · rfl
  · intro n hn m hm
    rcases List.mem_singleton.1 hn with rfl
    exact hno m hm

/-- C7: the search is sound with respect to the tree it is given: if no
node of the tree has the target time and target floor, the traversal
exhausts and reports null, never a path. -/
theorem C7_search_sound (root : Node) (targetFloor targetTime : Nat)
    (hno : ∀ m ∈ allNodes root, ¬(m.time = targetTime ∧ m.floor = targetFloor)) :
    findFinalDestinationPath root targetFloor targetTime = none :=
  findPath_none_of_no_match root targetFloor targetTime hno

/-- Witness for C7 on the testCase1 tree with an unreachable target. -/
theorem C7_search_sound_witness :
    (∀ m ∈ allNodes (buildElevatorPathTree schedule1 "A"), ¬(m.time = 1 ∧ m.floor = 9)) ∧
      findFinalDestinationPath (buildElevatorPathTree schedule1 "A") 9 1 = none :=
  ⟨by decide, C7_search_sound (buildElevatorPathTree schedule1 "A") 9 1 (by decide)⟩

/-- C8: for a starting elevator that is a schedule key, a target time
beyond the schedule's horizon yields the ordinary no-solution result of
the query (and null from the search), not a distinct invalid-input
error.  (A starting elevator that is not a key is outside the caller
contract: the source would fault on the property access.) -/
theorem C8_beyond_horizon (states : Schedule) (start : String)
    (targetFloor targetTime : Nat) (hk : start ∈ states.keys)
    (hft : horizon states < targetTime) :
    findElevatorPath states start targetFloor targetTime = "There is no solution" ∧
      findFinalDestinationPath (buildElevatorPathTree states start)
        targetFloor targetTime = none := by
  have hnone : findFinalDestinationPath (buildElevatorPathTree states start)
      targetFloor targetTime = none := by
    apply findPath_none_of_no_match
    intro m hm
    rintro ⟨hmt, -⟩
    unfold buildElevatorPathTree at hm
    have h2 := (allNodes_buildNode_keys states (buildFuel states start) start
      (floorAt states start 0) 0 hk m hm).2
    rw [hmt] at h2
    simp only [Nat.zero_max] at h2
    omega
  refine ⟨?_, hnone⟩
  unfold findElevatorPath
  rw [hnone]

/-- Witness for C8 on the testCase1 schedule with target time 6. -/
theorem C8_beyond_horizon_witness :
    ("A" ∈ schedule1.keys ∧ horizon schedule1 < 6) ∧
      findElevatorPath schedule1 "A" 5 6 = "There is no solution" :=
  ⟨⟨by decide, by decide⟩,
    (C8_beyond_horizon schedule1 "A" 5 6 (by decide) (by decide)).1⟩

/-- C1 counterexample: on the testCase1 input, the builder does not
satisfy "every non-root node's floor equals the schedule entry of its
elevator at the node's own time index, and every node's time is at most
horizon - 1": the first child of the root is elevator A at time 1 with
floor 1, but schedule1.A at index 1 is 4; and the node found by
testCase1 has time 5 = horizon. -/
theorem C1_counterexample :
    ¬ (∀ n ∈ allNodes (buildElevatorPathTree schedule1 "A"),
        (1 ≤ n.time → n.floor = floorAt schedule1 n.elevator n.time) ∧
          n.time ≤ horizon schedule1 - 1) := by
  decide

/-- C1 (amended): for a starting elevator that is a schedule key, every
non-root node's floor equals the schedule entry of its elevator at index
(time - 1) — the builder reads the schedule at the parent's time index —
and it is nonzero; and every node's time index is at most the horizon
(not horizon - 1; the deepest nodes sit at time = horizon). -/
theorem C1_amended (states : Schedule) (start : String) (hk : start ∈ states.keys) :
    ∀ n ∈ allNodes (buildElevatorPathTree states start),
      (1 ≤ n.time → n.floor = floorAt states n.elevator (n.time - 1) ∧ n.floor ≠ 0) ∧
        n.time ≤ horizon states := by
  intro n hn
  unfold buildElevatorPathTree at hn
  constructor
  · intro h1
    exact (allNodes_buildNode_floors states (buildFuel states start) start
      (floorAt states start 0) 0 n hn).2.2 (by omega)
  · have h2 := (allNodes_buildNode_keys states (buildFuel states start) start
      (floorAt states start 0) 0 hk n hn).2
    simp only [Nat.zero_max] at h2
    exact h2

/-- Witness for C1 (amended): the root's first child in the testCase1
tree, a non-root node at time 1. -/
theorem C1_amended_witness :
    "A" ∈ schedule1.keys ∧
      (allNodes (buildElevatorPathTree schedule1 "A")).getD 1 (Node.mk emptyStr 0 0 []) ∈
        allNodes (buildElevatorPathTree schedule1 "A") ∧
      1 ≤ ((allNodes (buildElevatorPathTree schedule1 "A")).getD 1
        (Node.mk emptyStr 0 0 [])).time ∧
      ((allNodes (buildElevatorPathTree schedule1 "A")).getD 1
          (Node.mk emptyStr 0 0 [])).floor =
        floorAt schedule1
          ((allNodes (buildElevatorPathTree schedule1 "A")).getD 1
            (Node.mk emptyStr 0 0 [])).elevator
          (((allNodes (buildElevatorPathTree schedule1 "A")).getD 1
            (Node.mk emptyStr 0 0 [])).time - 1) := by
  have hmem : (allNodes (buildElevatorPathTree schedule1 "A")).getD 1
      (Node.mk emptyStr 0 0 []) ∈ allNodes (buildElevatorPathTree schedule1 "A") := by
    rw [List.getD_eq_getElem _ _ (by decide)]
    exact List.getElem_mem _
  refine ⟨by decide, hmem, by decide, ?_⟩
  exact (((C1_amended schedule1 "A" (by decide)) _ hmem).1 (by decide)).1

/-- C6 counterexample: on the schedule {A:[1,2], B:[1,2]} with start A,
the builder creates more than one node for the same (elevator, time)
pair: the built tree's node list contains (A,2) and (B,2) twice (once
under the continuation branch, once under the transfer branch). -/
theorem C6_counterexample :
    ¬ ((allNodes (buildElevatorPathTree scheduleDup "A")).map
        (fun n => (n.elevator, n.time))).Nodup := by
  decide

theorem map_fst_filterMap_guard {β : Type} (l : List String) (p : String → Prop)
    [DecidablePred p] (v : String → β) :
    (l.filterMap (fun k => if p k then some (k, v k) else none)).map Prod.fst =
      l.filter (fun k => decide (p k)) := by
  induction l with
  | nil => rfl
  | cons a l ih =>
      by_cases h : p a
      · simp [List.filterMap_cons, h, ih]
      · simp [List.filterMap_cons, h, ih]

theorem childrenData_fst_nodup {states : Schedule} (hk : states.keys.Nodup)
    (e : String) (t : Nat) : ((childrenData states e t).map Prod.fst).Nodup := by
  unfold childrenData
  rw [List.map_append, map_fst_filterMap_guard]
  have hfil : (states.keys.filter fun k =>
      decide (floorAt states k t ≠ 0 ∧ e ≠ k ∧ floorAt states e t = floorAt states k t)).Nodup :=
    hk.filter _
  by_cases hg : floorAt states e t ≠ 0
  · rw [if_pos hg]
    rw [show ([(e, floorAt states e t)].map Prod.fst) = [e] from rfl]
    rw [List.nodup_append]
    refine ⟨List.nodup_singleton e, hfil, ?_⟩
    intro a ha hb
    rcases List.mem_singleton.1 ha with rfl
    have hprop := List.of_mem_filter hb
    simp only [decide_eq_true_eq] at hprop
    exact hprop.2.1 rfl
  · rw [if_neg hg]
    simpa using hfil

/-- C6 (amended): with distinct schedule keys (a JS object guarantee),
each single expansion creates at most one child per (elevator, time)
pair: for every node of the built tree, the children's (elevator, time)
pairs are pairwise distinct.  Globally, however, distinct nodes may
share an (elevator, time) pair (see the counterexample). -/
theorem C6_amended (states : Schedule) (start : String) (hk : states.keys.Nodup) :
    ∀ n ∈ allNodes (buildElevatorPathTree states start),
      (n.children.map (fun c => (c.elevator, c.time))).Nodup := by
  intro n hn
  have hwb : WellBuilt states n := wellBuilt_mem (build_wellBuilt states start) n hn
  rcases hwb with ⟨e, f, t, cs, hmap, htimes, hwbc⟩
  simp only [children_mk]
  have h1 : cs.map (fun c => c.elevator) = (childrenData states e t).map Prod.fst := by
    rw [← hmap, List.map_map]
    rfl
  have h2 : (cs.map (fun c => c.elevator)).Nodup := by
    rw [h1]
    exact childrenData_fst_nodup hk e t
  apply List.Nodup.of_map Prod.fst
  rw [List.map_map]
  exact h2

/-- Witness for C6 (amended): the root of the duplicate-prone tree has
two children, on distinct elevators. -/
theorem C6_amended_witness :
    scheduleDup.keys.Nodup ∧
      buildElevatorPathTree scheduleDup "A" ∈ allNodes (buildElevatorPathTree scheduleDup "A") ∧
      ((buildElevatorPathTree scheduleDup "A").children.map
        (fun c => (c.elevator, c.time))).Nodup :=
  ⟨by decide, mem_allNodes_self _,
    C6_amended scheduleDup "A" (by decide) _ (mem_allNodes_self _)⟩

/-- C9 counterexample: the root node is created unconditionally, so on
the schedule {A:[0]} the built tree does contain a node with floor 0 —
the claim that no node of the built tree ever has floor 0 fails. -/
theorem C9_counterexample :
    ¬ (∀ n ∈ allNodes (buildElevatorPathTree scheduleZero "A"), n.floor ≠ 0) := by
  decide

/-- C9 (amended): a schedule entry of 0 behaves exactly like an
undefined entry — a node whose elevator has entry 0 at the expansion
index gets no continuation child and no transfer children, so every
non-root node has a nonzero floor (the root may carry floor 0, since it
is created unconditionally); and under the data-model precondition that
all floors are positive, the truthiness guard is equivalent to a
definedness (index in range) check. -/
theorem C9_amended (states : Schedule) (start : String) :
    (∀ (e : String) (t : Nat), floorAt states e t = 0 → childrenData states e t = []) ∧
      (∀ n ∈ allNodes (buildElevatorPathTree states start), 1 ≤ n.time → n.floor ≠ 0) ∧
      (∀ (e : String) (t : Nat), (∀ x ∈ states.floors e, 0 < x) →
        (floorAt states e t ≠ 0 ↔ t < (states.floors e).length)) := by
  refine ⟨fun e t h => childrenData_eq_nil h, ?_, ?_⟩
  · intro n hn h1
    unfold buildElevatorPathTree at hn
    exact ((allNodes_buildNode_floors states (buildFuel states start) start
      (floorAt states start 0) 0 n hn).2.2 (by omega)).2
  · intro e t hpos
    constructor
    · exact fun h => lt_length_of_floorAt_ne_zero h
    · intro hlt
      have hmem : (states.floors e).getD t 0 ∈ states.floors e := by
        rw [List.getD_eq_getElem _ _ hlt]
        exact List.getElem_mem _
      have hx := hpos _ hmem
      unfold floorAt
      omega

/-- Witness for C9 (amended): the zero entry of scheduleZero kills all
children, and on the all-positive schedule1 the guard is a definedness
check. -/
theorem C9_amended_witness :
    (floorAt scheduleZero "A" 0 = 0 ∧ childrenData scheduleZero "A" 0 = []) ∧
      (∀ x ∈ schedule1.floors "A", 0 < x) ∧
      (floorAt schedule1 "A" 2 ≠ 0 ↔ 2 < (schedule1.floors "A").length) :=
  ⟨⟨by decide, (C9_amended scheduleZero "A").1 "A" 0 (by decide)⟩, by decide,
    (C9_amended schedule1 "A").2.2 "A" 2 (by decide)⟩

/-- C3 counterexample: the no-solution indicator is the sentinel string
"There is no solution", and it is not distinguishable from a successful
zero-transfer path: on the schedule {A:[1]} with target floor 1 at time
0 the search succeeds with the empty path string, which the query's
falsy check collapses into the very same sentinel that a genuinely
unsolvable query (target floor 9) produces. -/
theorem C3_counterexample :
    findFinalDestinationPath (buildElevatorPathTree scheduleUnit "A") 1 0 = some emptyStr ∧
      findElevatorPath scheduleUnit "A" 1 0 = "There is no solution" ∧
      findElevatorPath scheduleUnit "A" 9 0 = "There is no solution" :=
  ⟨rfl, rfl, rfl⟩

/-- C3 (amended): the query's no-solution indicator is the sentinel
string "There is no solution", and it collides with zero-transfer
success: for every schedule and single-character starting elevator whose
floor at time 0 equals the target floor, the target-time-0 query returns
that same sentinel even though the search found a valid (empty) path.
Only the inner search's null is distinguishable from success. -/
theorem C3_amended (states : Schedule) (start : String) (targetFloor : Nat)
    (hlen : start.length = 1) (hfl : floorAt states start 0 = targetFloor) :
    findElevatorPath states start targetFloor 0 = "There is no solution" := by
  have hres : findFinalDestinationPath (buildElevatorPathTree states start) targetFloor 0 =
      some (strip1 (joinAll [start])) := by
    unfold findFinalDestinationPath buildElevatorPathTree buildFuel
    rw [buildNode]
    generalize (childrenData states start 0).map
      (fun q => buildNode states (max ((states.floors start).length) (horizon states))
        q.1 q.2 (0 + 1)) = cs0
    rw [searchLoopStr]
    have hns : nextStack [] 0 (Node.mk start (floorAt states start 0) 0 cs0) = [start] := by
      simp [nextStack]
    simp only [time_mk, floor_mk, children_mk, hns]
    rw [if_pos ⟨trivial, hfl⟩]
  have hempty : strip1 (joinAll [start]) = emptyStr := by
    have hd : start.data.length = 1 := hlen
    rcases List.length_eq_one.1 hd with ⟨c, hc⟩
    unfold strip1 joinAll emptyStr
    simp [hc]
  unfold findElevatorPath
  rw [hres, hempty]
  rfl

/-- Witness for C3 (amended) on the one-elevator schedule. -/
theorem C3_amended_witness :
    (("A" : String).length = 1 ∧ floorAt scheduleUnit "A" 0 = 1) ∧
      findElevatorPath scheduleUnit "A" 1 0 = "There is no solution" :=
  ⟨⟨by decide, by decide⟩, C3_amended scheduleUnit "A" 1 (by decide) (by decide)⟩

/-- C10: the search returns the concatenation of the elevator
identifiers along the root-to-match path stack with only its first
character removed.  When every identifier has exactly one character,
this equals the concatenation of the non-root entries (the intended
step-1..targetTime sequence); for a multi-character starting identifier
the remainder of the root's identifier leaks into the output, as on the
schedule {AB:[1,1]} where the returned string is "BAB" instead of "AB". -/
theorem C10_string_rendering :
    (∀ (root : Node) (targetFloor targetTime : Nat),
        findFinalDestinationPath root targetFloor targetTime =
          (findFinalDestinationStack root targetFloor targetTime).map
            (fun ps => strip1 (joinAll ps))) ∧
      (∀ ps : List String, (∀ s ∈ ps, s.length = 1) →
        strip1 (joinAll ps) = joinAll ps.tail) ∧
      (findFinalDestinationStack (buildElevatorPathTree scheduleAB "AB") 1 1 =
          some ["AB", "AB"] ∧
        findFinalDestinationPath (buildElevatorPathTree scheduleAB "AB") 1 1 = some "BAB" ∧
        joinAll (List.tail ["AB", "AB"]) = "AB" ∧ ("BAB" : String) ≠ "AB") := by
  refine ⟨?_, ?_, rfl, rfl, rfl, by decide⟩
  · intro root targetFloor targetTime
    unfold findFinalDestinationPath findFinalDestinationStack
    exact searchLoopStr_eq targetFloor targetTime _ _ _ _
  · intro ps h
    cases ps with
    | nil => rfl
    | cons s rest =>
        have hs : s.data.length = 1 := h s (List.mem_cons_self s rest)
        rcases List.length_eq_one.1 hs with ⟨c, hc⟩
        unfold strip1 joinAll
        simp [hc]

/-- Witness for C10 on a two-entry single-character stack. -/
theorem C10_string_rendering_witness :
    (∀ s ∈ (["A", "B"] : List String), s.length = 1) ∧
      strip1 (joinAll ["A", "B"]) = joinAll (List.tail ["A", "B"]) :=
  ⟨by decide, C10_string_rendering.2.1 ["A", "B"] (by decide)⟩

/-- Sanity check of the embedding against the remaining source test
case: testCase2 expects the path D,E,E,C,A,A. -/
theorem testCase2_path : findElevatorPath schedule2 "B" 2 6 = "DEECAA" := rfl
